import Mathlib

/-!
# Verification of the Othello game generator

Shallow embedding of `tools/generate_othello_games.py`: the `OthelloBoard`
class (board state, legality, move application, pass and termination
handling, coordinate codec) and the `generate_game` driver, together with
proofs of the specified properties.

The Python board is a list of 8 lists of 8 ints (0 = empty, 1 = black,
2 = white).  We model it as `List (List Nat)`.  Python indexing (which
accepts negative indices by wrapping from the end, and raises `IndexError`
otherwise) is modelled by `pyIdx`/`pyGetL`/`boardGet`/`boardSet` returning
`Option`.  The unbounded `while` loops of the directional scans are modelled
with a fuel argument; fuel `8` is an upper bound on the number of iterations
any of these loops can perform, because each walks a ray of the 8×8 grid
(adequacy is proved where it matters, in the legality correspondence).
-/

namespace Othello

/-- `EMPTY` constant of the source. -/
def EMPTY : Nat := 0

/-- `BLACK` constant of the source. -/
def BLACK : Nat := 1

/-- `WHITE` constant of the source. -/
def WHITE : Nat := 2

/-- The `DIRECTIONS` table of the source: the 8 compass offsets. -/
def DIRECTIONS : List (Int × Int) :=
  [(-1, -1), (-1, 0), (-1, 1), (0, -1), (0, 1), (1, -1), (1, 0), (1, 1)]

/-- The board grid: a list of rows of cell values, as in the Python source. -/
abbrev Grid := List (List Nat)

/-- Python list index resolution for a list of length `len`: a nonnegative
index must be `< len`; a negative index `i` with `-len ≤ i` wraps to
`i + len`; anything else raises `IndexError` (modelled as `none`). -/
def pyIdx (len : Nat) (i : Int) : Option Nat :=
  if 0 ≤ i ∧ i < (len : Int) then some i.toNat
  else if -(len : Int) ≤ i ∧ i < 0 then some (i + len).toNat
  else none

/-- Python `xs[i]` on a list. -/
def pyGetL {α : Type} (xs : List α) (i : Int) : Option α :=
  (pyIdx xs.length i).bind fun j => xs[j]?

/-- Python `self.board[r][c]` (read). -/
def boardGet (g : Grid) (r c : Int) : Option Nat :=
  (pyGetL g r).bind fun row => pyGetL row c

/-- Python `self.board[r][c] = v` (write). -/
def boardSet (g : Grid) (r c : Int) (v : Nat) : Option Grid :=
  (pyIdx g.length r).bind fun i =>
    match g[i]? with
    | none => none
    | some row => (pyIdx row.length c).map fun j => g.set i (row.set j v)

/-- Total in-range read used under `0 ≤ r < 8` guards (where it agrees with
`boardGet` on an 8×8 grid). -/
def cellAt (g : Grid) (r c : Int) : Nat :=
  (g.getD r.toNat []).getD c.toNat EMPTY

/-- Total in-range write used under in-range guards. -/
def gridSet (g : Grid) (r c : Int) (v : Nat) : Grid :=
  g.set r.toNat ((g.getD r.toNat []).set c.toNat v)

/-- The bounds test `0 <= r < self.SIZE and 0 <= c < self.SIZE`. -/
def inBb (r c : Int) : Bool :=
  decide (0 ≤ r) && decide (r < 8) && decide (0 ≤ c) && decide (c < 8)

/-- The board container: grid, `current_player`, and recorded `moves`. -/
structure Board where
  board : Grid
  current_player : Nat
  moves : List String
deriving DecidableEq, Repr

/-- The initial grid built by `__init__`: empty 8×8, then the four central
cells are assigned. -/
def initialGrid : Grid :=
  gridSet (gridSet (gridSet (gridSet
    (List.replicate 8 (List.replicate 8 EMPTY)) 3 3 WHITE) 3 4 BLACK) 4 3 BLACK) 4 4 WHITE

/-- A fresh `OthelloBoard()`: standard starting position, Black to move. -/
def initialBoard : Board :=
  { board := initialGrid, current_player := BLACK, moves := [] }

/-- The idiom `self.WHITE if self.current_player == self.BLACK else self.BLACK`
used for both the opponent computation and the player switch. -/
def opponentOf (p : Nat) : Nat :=
  if p == BLACK then WHITE else BLACK

/-- The inner `while` loop of `is_valid_move`: walk a ray; empty cell or
board edge ends the direction without a capture, an own-colored cell
confirms the move. -/
def walkRay (g : Grid) (cur : Nat) (dr dc : Int) : Nat → Int → Int → Bool
  | 0, _, _ => false
  | fuel + 1, r, c =>
    if inBb r c then
      if cellAt g r c == EMPTY then false
      else if cellAt g r c == cur then true
      else walkRay g cur dr dc fuel (r + dr) (c + dc)
    else false

/-- One direction of the `is_valid_move` scan: the adjacent cell must be
on the board and opponent-colored, then the walk continues from the next
cell. -/
def checkDir (g : Grid) (cur opp : Nat) (row col dr dc : Int) : Bool :=
  if inBb (row + dr) (col + dc) && (cellAt g (row + dr) (col + dc) == opp) then
    walkRay g cur dr dc 8 (row + dr + dr) (col + dc + dc)
  else false

/-- `OthelloBoard.is_valid_move`.  `none` models an `IndexError` escaping
from the initial `self.board[row][col]` read. -/
def is_valid_move (b : Board) (row col : Int) : Option Bool :=
  match boardGet b.board row col with
  | none => none
  | some v =>
    if v != EMPTY then some false
    else
      some (DIRECTIONS.any fun d =>
        checkDir b.board b.current_player (opponentOf b.current_player) row col d.1 d.2)

/-- `OthelloBoard.get_valid_moves`: row-major scan of the 64 cells. -/
def get_valid_moves (b : Board) : List (Int × Int) :=
  ((List.range 8).map fun r =>
    (List.range 8).filterMap fun c =>
      if ( is_valid_move b (Int.ofNat r) (Int.ofNat c)).getD false then
        some ((Int.ofNat r), (Int.ofNat c))
      else none).flatten

/-- `OthelloBoard.has_valid_moves`: `len(self.get_valid_moves()) > 0`. -/
def has_valid_moves (b : Board) : Bool :=
  decide (0 < (get_valid_moves b).length)

/-- `OthelloBoard.switch_player`. -/
def switch_player (b : Board) : Board :=
  { b with current_player := opponentOf b.current_player }

/-- `OthelloBoard.is_game_over`, with the state threaded explicitly: the
probe toggles the player, checks mobility, and toggles back; the returned
board is the state after the call. -/
def is_game_over_s (b : Board) : Bool × Board :=
  if has_valid_moves b then (false, b)
  else
    let b1 := switch_player b
    let has_moves := has_valid_moves b1
    let b2 := switch_player b1
    (!has_moves, b2)

/-- `OthelloBoard.coords_to_notation`: `chr(97 + col) + str(row + 1)`. -/
def coords_to_notation (row col : Int) : String :=
  String.mk [Char.ofNat (97 + col).toNat] ++ toString (row + 1)

/-- `OthelloBoard.notation_to_coords`: `(int(notation[1]) - 1, ord(notation[0]) - 97)`;
`none` models the `IndexError`/`ValueError` on malformed input. -/
def notation_to_coords (s : String) : Option (Int × Int) :=
  match s.data with
  | c0 :: c1 :: _ =>
    if c1.isDigit then some (((c1.toNat : Int) - 48) - 1, (c0.toNat : Int) - 97)
    else none
  | _ => none

/-- The per-direction `while` loop of `make_move`, with the `to_flip`
accumulator: collects opponent cells along the ray; the accumulator is
cleared when the run ends at the edge or an empty cell, and returned when
an own-colored cell ends it. -/
def collectLoop (g : Grid) (cur opp : Nat) (dr dc : Int) :
    Nat → Int → Int → List (Int × Int) → List (Int × Int)
  | 0, _, _, acc => acc
  | fuel + 1, r, c, acc =>
    if inBb r c && (cellAt g r c == opp) then
      if !inBb (r + dr) (c + dc) || (cellAt g (r + dr) (c + dc) == EMPTY) then []
      else if cellAt g (r + dr) (c + dc) == cur then acc ++ [(r, c)]
      else collectLoop g cur opp dr dc fuel (r + dr) (c + dc) (acc ++ [(r, c)])
    else acc

/-- The `for flip_r, flip_c in to_flip` loop of `make_move`. -/
def flipCells (cur : Nat) : Grid → List (Int × Int) → Grid
  | g, [] => g
  | g, p :: ps => flipCells cur (gridSet g p.1 p.2 cur) ps

/-- The outer `for dr, dc in self.DIRECTIONS` loop of `make_move`: collect
and flip per direction, on the grid as mutated so far. -/
def applyDirs (cur opp : Nat) (row col : Int) : Grid → List (Int × Int) → Grid
  | g, [] => g
  | g, d :: ds =>
    applyDirs cur opp row col
      (flipCells cur g (collectLoop g cur opp d.1 d.2 8 (row + d.1) (col + d.2) [])) ds

/-- `OthelloBoard.make_move`: re-check legality, place, flip per direction,
record the token, switch the player. -/
def make_move (b : Board) (row col : Int) : Option (Bool × Board) :=
  match is_valid_move b row col with
  | none => none
  | some false => some (false, b)
  | some true =>
    match boardSet b.board row col b.current_player with
    | none => none
    | some g0 =>
      some (true,
        { board := applyDirs b.current_player (opponentOf b.current_player) row col g0 DIRECTIONS,
          current_player := opponentOf b.current_player,
          moves := b.moves ++ [ coords_to_notation row col] })

/-- One iteration of the `generate_game` while loop, with the recursive
continuation abstracted: check termination (threading the probe's state),
pass when the current player has no valid move, otherwise apply a chosen
valid move. -/
def genStep (choose : List (Int × Int) → Int × Int) (rec : Board → Option Board)
    (b : Board) : Option Board :=
  if (is_game_over_s b).1 then some (is_game_over_s b).2
  else
    match get_valid_moves (is_game_over_s b).2 with
    | [] => rec (switch_player (is_game_over_s b).2)
    | _ :: _ =>
      match make_move (is_game_over_s b).2
          (choose (get_valid_moves (is_game_over_s b).2)).1
          (choose (get_valid_moves (is_game_over_s b).2)).2 with
      | some p => rec p.2
      | none => none

/-- The `generate_game` loop, parametrised by the random choice function
(`random.choice`) and a fuel bound; `none` means the fuel did not suffice
to reach the terminal state, `some` is a completed run. -/
def genLoop (choose : List (Int × Int) → Int × Int) : Nat → Board → Option Board
  | 0, _ => none
  | fuel + 1, b => genStep choose (genLoop choose fuel) b

/-- Modelled from the spec (§4.3 / §8 "Replay consistency"): replay a
recorded token list against a board, decoding each token and applying it
via `make_move`, re-deriving pass plies by checking `has_valid_moves` at
each step (switching players when it fails) instead of consulting the
recorded list. -/
def replayStep (rec : List String → Board → Board) (t : String) (ts : List String)
    (b : Board) : Board :=
  if has_valid_moves b then
    match notation_to_coords t with
    | none => b
    | some rc =>
      match make_move b rc.1 rc.2 with
      | some p => rec ts p.2
      | none => b
  else rec (t :: ts) (switch_player b)

/-- The replay loop itself, with a fuel bound on the number of plies. -/
def replay : Nat → List String → Board → Board
  | _, [], b => b
  | 0, _ :: _, b => b
  | fuel + 1, t :: ts, b => replayStep (replay fuel) t ts b

/-- Well-formed grid shape: 8 rows of 8 cells. -/
def shape8 (g : Grid) : Prop :=
  g.length = 8 ∧ ∀ row ∈ g, row.length = 8

/-- All cells hold one of the three cell values. -/
def cellsOK (g : Grid) : Prop :=
  ∀ row ∈ g, ∀ v ∈ row, v = EMPTY ∨ v = BLACK ∨ v = WHITE

/-- Well-formed board state: 8×8 grid of cell values, a real player to move. -/
def WF (b : Board) : Prop :=
  shape8 b.board ∧ cellsOK b.board ∧ (b.current_player = BLACK ∨ b.current_player = WHITE)

instance (g : Grid) : Decidable (shape8 g) := by
  unfold shape8; infer_instance

instance (g : Grid) : Decidable (cellsOK g) := by
  unfold cellsOK; infer_instance

instance (b : Board) : Decidable (WF b) := by
  unfold WF; infer_instance

/-- Number of occupied (non-empty) cells of a grid. -/
def occ (g : Grid) : Nat :=
  (g.map fun row => row.countP fun v => v != EMPTY).sum

/-- Board states reachable by the engine's public operations from a fresh
board (applied moves and player switches, the latter covering both passes
and the termination probe). -/
inductive Reachable : Board → Prop where
  | init : Reachable initialBoard
  | move (b b' : Board) (row col : Int) :
      Reachable b → (row, col) ∈ get_valid_moves b →
      make_move b row col = some (true, b') → Reachable b'
  | pass (b : Board) : Reachable b → Reachable (switch_player b)

/-- Spec-side capture predicate, following §4.2 of the spec: a direction
captures iff, starting from the cell adjacent to the candidate in that
direction, there is a contiguous run of one or more opponent-colored cells,
entirely on the board, immediately followed by a cell of the active
player's color. -/
def capturesSpec (g : Grid) (cur opp : Nat) (row col dr dc : Int) : Prop :=
  ∃ k : Nat, 1 ≤ k ∧
    (∀ j : Nat, 1 ≤ j → j ≤ k →
      inBb (row + (j : Int) * dr) (col + (j : Int) * dc) = true ∧
      cellAt g (row + (j : Int) * dr) (col + (j : Int) * dc) = opp) ∧
    inBb (row + ((k + 1 : Nat) : Int) * dr) (col + ((k + 1 : Nat) : Int) * dc) = true ∧
    cellAt g (row + ((k + 1 : Nat) : Int) * dr) (col + ((k + 1 : Nat) : Int) * dc) = cur

/-! ## Basic lemmas -/

lemma opponentOf_ne (p : Nat) (h : p = BLACK ∨ p = WHITE) : opponentOf p ≠ p := by
  rcases h with h | h <;> simp [opponentOf, h, BLACK, WHITE]

lemma switch_switch (b : Board) (h : b.current_player = BLACK ∨ b.current_player = WHITE) :
    switch_player (switch_player b) = b := by
  obtain ⟨g, p, ms⟩ := b
  rcases h with h | h <;> simp_all [switch_player, opponentOf, BLACK, WHITE]

lemma has_valid_moves_false_iff (b : Board) :
    has_valid_moves b = false ↔ get_valid_moves b = [] := by
  simp [has_valid_moves, List.length_eq_zero]

lemma boardGet_total (g : Grid) (hs : shape8 g) (r c : Int)
    (hr0 : -8 ≤ r) (hr8 : r < 8) (hc0 : -8 ≤ c) (hc8 : c < 8) :
    ∃ v, boardGet g r c = some v := by
  obtain ⟨hlen, hrows⟩ := hs
  have hidx : ∃ j : Nat, pyIdx g.length r = some j ∧ j < 8 := by
    unfold pyIdx
    rw [hlen]
    split_ifs with h1 h2
    · exact ⟨r.toNat, rfl, by omega⟩
    · exact ⟨(r + 8).toNat, rfl, by omega⟩
    · omega
  obtain ⟨j, hj, hj8⟩ := hidx
  have hjlen : j < g.length := by omega
  have hrow : g[j]? = some g[j] := List.getElem?_eq_getElem hjlen
  have hrlen : (g[j]).length = 8 := hrows _ (List.getElem_mem hjlen)
  have hidx2 : ∃ k : Nat, pyIdx (g[j]).length c = some k ∧ k < 8 := by
    unfold pyIdx
    rw [hrlen]
    split_ifs with h1 h2
    · exact ⟨c.toNat, rfl, by omega⟩
    · exact ⟨(c + 8).toNat, rfl, by omega⟩
    · omega
  obtain ⟨k, hk, hk8⟩ := hidx2
  have hklen : k < (g[j]).length := by omega
  refine ⟨(g[j])[k], ?_⟩
  simp [boardGet, pyGetL, hj, hrow, hk, List.getElem?_eq_getElem hklen]

lemma inBb_iff (r c : Int) : inBb r c = true ↔ 0 ≤ r ∧ r < 8 ∧ 0 ≤ c ∧ c < 8 := by
  simp [inBb, and_assoc]

lemma cellAt_getElem (g : Grid) (hs : shape8 g) (r c : Int) (h : inBb r c = true) :
    ∃ (hr : r.toNat < g.length) (hc : c.toNat < (g[r.toNat]).length),
      cellAt g r c = (g[r.toNat])[c.toNat] := by
  rw [inBb_iff] at h
  obtain ⟨hlen, hrows⟩ := hs
  have hr : r.toNat < g.length := by omega
  have hrlen : (g[r.toNat]).length = 8 := hrows _ (List.getElem_mem hr)
  have hc : c.toNat < (g[r.toNat]).length := by omega
  refine ⟨hr, hc, ?_⟩
  rw [cellAt, List.getD_eq_getElem g [] hr, List.getD_eq_getElem _ EMPTY hc]

lemma cellAt_mem_vals (g : Grid) (hs : shape8 g) (hc : cellsOK g) (r c : Int)
    (h : inBb r c = true) :
    cellAt g r c = EMPTY ∨ cellAt g r c = BLACK ∨ cellAt g r c = WHITE := by
  obtain ⟨hr, hcl, heq⟩ := cellAt_getElem g hs r c h
  rw [heq]
  exact hc _ (List.getElem_mem hr) _ (List.getElem_mem hcl)

lemma boardGet_eq_cellAt (g : Grid) (hs : shape8 g) (r c : Int) (h : inBb r c = true) :
    boardGet g r c = some (cellAt g r c) := by
  obtain ⟨hr, hcl, heq⟩ := cellAt_getElem g hs r c h
  rw [inBb_iff] at h
  have h1 : pyIdx g.length r = some r.toNat := by
    unfold pyIdx
    rw [if_pos ⟨h.1, by omega⟩]
  have h2 : pyIdx (g[r.toNat]).length c = some c.toNat := by
    unfold pyIdx
    rw [if_pos ⟨h.2.2.1, by omega⟩]
  simp [boardGet, pyGetL, h1, h2, List.getElem?_eq_getElem hr,
    List.getElem?_eq_getElem hcl, heq]

/-! ## C1: the directional walk against the spec's capture rule -/

lemma walkRay_sound (g : Grid) (cur : Nat) (dr dc : Int) :
    ∀ (fuel : Nat) (r0 c0 : Int), walkRay g cur dr dc fuel r0 c0 = true →
    ∃ m : Nat, m < fuel ∧
      (∀ j : Nat, j < m → inBb (r0 + j * dr) (c0 + j * dc) = true ∧
        cellAt g (r0 + j * dr) (c0 + j * dc) ≠ EMPTY ∧
        cellAt g (r0 + j * dr) (c0 + j * dc) ≠ cur) ∧
      inBb (r0 + m * dr) (c0 + m * dc) = true ∧
      cellAt g (r0 + m * dr) (c0 + m * dc) = cur := by
  intro fuel
  induction fuel with
  | zero => intro r0 c0 h; simp [walkRay] at h
  | succ n ih =>
    intro r0 c0 h
    unfold walkRay at h
    by_cases hb : inBb r0 c0 = true
    · rw [if_pos hb] at h
      by_cases he : (cellAt g r0 c0 == EMPTY) = true
      · rw [if_pos he] at h; exact absurd h (by simp)
      · rw [if_neg he] at h
        by_cases hq : (cellAt g r0 c0 == cur) = true
        · refine ⟨0, by omega, by omega, ?_, ?_⟩
          · simpa using hb
          · simpa using hq
        · rw [if_neg hq] at h
          obtain ⟨m, hmf, hrun, hin, hcell⟩ := ih (r0 + dr) (c0 + dc) h
          have hshift : ∀ i : Nat,
              (r0 + dr + (i : Int) * dr = r0 + ((i + 1 : Nat) : Int) * dr) ∧
              (c0 + dc + (i : Int) * dc = c0 + ((i + 1 : Nat) : Int) * dc) := by
            intro i; constructor <;> (push_cast; ring)
          refine ⟨m + 1, by omega, ?_, ?_, ?_⟩
          · intro j hj
            match j with
            | 0 =>
              refine ⟨by simpa using hb, by simpa using he, by simpa using hq⟩
            | i + 1 =>
              have hi : i < m := by omega
              obtain ⟨h1, h2, h3⟩ := hrun i hi
              rw [(hshift i).1, (hshift i).2] at h1 h2 h3
              exact ⟨h1, h2, h3⟩
          · rw [← (hshift m).1, ← (hshift m).2]; exact hin
          · rw [← (hshift m).1, ← (hshift m).2]; exact hcell
    · rw [if_neg hb] at h; exact absurd h (by simp)

lemma walkRay_complete (g : Grid) (cur : Nat) (dr dc : Int) (hcur : cur ≠ EMPTY) :
    ∀ (m fuel : Nat) (r0 c0 : Int), m < fuel →
    (∀ j : Nat, j < m → inBb (r0 + j * dr) (c0 + j * dc) = true ∧
      cellAt g (r0 + j * dr) (c0 + j * dc) ≠ EMPTY ∧
      cellAt g (r0 + j * dr) (c0 + j * dc) ≠ cur) →
    inBb (r0 + m * dr) (c0 + m * dc) = true →
    cellAt g (r0 + m * dr) (c0 + m * dc) = cur →
    walkRay g cur dr dc fuel r0 c0 = true := by
  intro m
  induction m with
  | zero =>
    intro fuel r0 c0 hf _ hin hcell
    obtain ⟨f, rfl⟩ : ∃ f, fuel = f + 1 := ⟨fuel - 1, by omega⟩
    unfold walkRay
    rw [if_pos (by simpa using hin)]
    have h0 : cellAt g r0 c0 = cur := by simpa using hcell
    rw [if_neg (by simp [h0]; exact hcur), if_pos (by simp [h0])]
  | succ i ih =>
    intro fuel r0 c0 hf hrun hin hcell
    obtain ⟨f, rfl⟩ : ∃ f, fuel = f + 1 := ⟨fuel - 1, by omega⟩
    obtain ⟨hb0, he0, hq0⟩ := hrun 0 (by omega)
    have hshift : ∀ i : Nat,
        (r0 + dr + (i : Int) * dr = r0 + ((i + 1 : Nat) : Int) * dr) ∧
        (c0 + dc + (i : Int) * dc = c0 + ((i + 1 : Nat) : Int) * dc) := by
      intro i; constructor <;> (push_cast; ring)
    unfold walkRay
    rw [if_pos (by simpa using hb0)]
    rw [if_neg (by simpa using he0), if_neg (by simpa using hq0)]
    refine ih f (r0 + dr) (c0 + dc) (by omega) ?_ ?_ ?_
    · intro j hj
      obtain ⟨h1, h2, h3⟩ := hrun (j + 1) (by omega)
      rw [(hshift j).1, (hshift j).2]
      exact ⟨h1, h2, h3⟩
    · rw [(hshift i).1, (hshift i).2]; exact hin
    · rw [(hshift i).1, (hshift i).2]; exact hcell

lemma opponentOf_vals (cur : Nat) (h : cur = BLACK ∨ cur = WHITE) :
    (opponentOf cur = BLACK ∨ opponentOf cur = WHITE) ∧ opponentOf cur ≠ cur ∧
      opponentOf cur ≠ EMPTY := by
  rcases h with h | h <;> simp [opponentOf, h, BLACK, WHITE, EMPTY]

lemma dir_run_bound (row col dr dc : Int) (hd : (dr, dc) ∈ DIRECTIONS) (k : Nat)
    (h1 : inBb (row + ((1 : Nat) : Int) * dr) (col + ((1 : Nat) : Int) * dc) = true)
    (h2 : inBb (row + ((k + 1 : Nat) : Int) * dr) (col + ((k + 1 : Nat) : Int) * dc) = true) :
    k ≤ 7 := by
  rw [inBb_iff] at h1 h2
  fin_cases hd <;> (push_cast at h1 h2; omega)

lemma checkDir_iff (g : Grid) (hs : shape8 g) (hok : cellsOK g) (cur : Nat)
    (hcur : cur = BLACK ∨ cur = WHITE) (row col dr dc : Int)
    (hd : (dr, dc) ∈ DIRECTIONS) :
    checkDir g cur (opponentOf cur) row col dr dc = true ↔
      capturesSpec g cur (opponentOf cur) row col dr dc := by
  obtain ⟨hoppv, hoppne, hoppz⟩ := opponentOf_vals cur hcur
  have hcurz : cur ≠ EMPTY := by
    rcases hcur with h | h <;> simp [h, BLACK, WHITE, EMPTY]
  have hshift : ∀ i : Nat,
      (row + dr + dr + (i : Int) * dr = row + ((i + 2 : Nat) : Int) * dr) ∧
      (col + dc + dc + (i : Int) * dc = col + ((i + 2 : Nat) : Int) * dc) := by
    intro i; constructor <;> (push_cast; ring)
  have e1 : row + ((1 : Nat) : Int) * dr = row + dr := by push_cast; ring
  have e2 : col + ((1 : Nat) : Int) * dc = col + dc := by push_cast; ring
  constructor
  · intro h
    unfold checkDir at h
    by_cases hb : (inBb (row + dr) (col + dc) &&
        (cellAt g (row + dr) (col + dc) == opponentOf cur)) = true
    · rw [if_pos hb] at h
      simp only [Bool.and_eq_true, beq_iff_eq] at hb
      obtain ⟨hb1, hb2⟩ := hb
      obtain ⟨m, hm8, hrun, hin, hcell⟩ :=
        walkRay_sound g cur dr dc 8 (row + dr + dr) (col + dc + dc) h
      refine ⟨m + 1, by omega, ?_, ?_, ?_⟩
      · intro j hj1 hjk
        by_cases hj : j = 1
        · subst hj
          rw [e1, e2]
          exact ⟨hb1, hb2⟩
        · obtain ⟨i, rfl⟩ : ∃ i, j = i + 2 := ⟨j - 2, by omega⟩
          obtain ⟨h1, h2, h3⟩ := hrun i (by omega)
          rw [(hshift i).1, (hshift i).2] at h1 h2 h3
          refine ⟨h1, ?_⟩
          have hv := cellAt_mem_vals g hs hok _ _ h1
          rcases hcur with hc1 | hc1 <;> rcases hv with hv | hv | hv <;>
            simp_all [opponentOf, BLACK, WHITE, EMPTY]
      · have et : row + ((m + 1 + 1 : Nat) : Int) * dr =
            row + dr + dr + (m : Int) * dr := by push_cast; ring
        have et2 : col + ((m + 1 + 1 : Nat) : Int) * dc =
            col + dc + dc + (m : Int) * dc := by push_cast; ring
        rw [et, et2]
        exact hin
      · have et : row + ((m + 1 + 1 : Nat) : Int) * dr =
            row + dr + dr + (m : Int) * dr := by push_cast; ring
        have et2 : col + ((m + 1 + 1 : Nat) : Int) * dc =
            col + dc + dc + (m : Int) * dc := by push_cast; ring
        rw [et, et2]
        exact hcell
    · rw [if_neg hb] at h
      exact absurd h (by simp)
  · rintro ⟨k, hk1, hrun, hin, hcell⟩
    have hj1 := hrun 1 le_rfl hk1
    have hbound : k ≤ 7 := dir_run_bound row col dr dc hd k hj1.1 hin
    obtain ⟨hb1, hb2⟩ := hj1
    rw [e1, e2] at hb1 hb2
    unfold checkDir
    rw [if_pos (by simp [hb1, hb2])]
    have e3 : row + dr + dr + ((k - 1 : Nat) : Int) * dr =
        row + ((k + 1 : Nat) : Int) * dr := by
      push_cast [Nat.cast_sub hk1]; ring
    have e4 : col + dc + dc + ((k - 1 : Nat) : Int) * dc =
        col + ((k + 1 : Nat) : Int) * dc := by
      push_cast [Nat.cast_sub hk1]; ring
    refine walkRay_complete g cur dr dc hcurz (k - 1) 8 (row + dr + dr) (col + dc + dc)
      (by omega) ?_ ?_ ?_
    · intro j hj
      obtain ⟨a1, a2⟩ := hrun (j + 2) (by omega) (by omega)
      rw [← (hshift j).1, ← (hshift j).2] at a1 a2
      exact ⟨a1, by rw [a2]; exact hoppz, by rw [a2]; exact hoppne⟩
    · rw [e3, e4]; exact hin
    · rw [e3, e4]; exact hcell

/-- C1: on a well-formed board state, for any in-range coordinate whose cell
is Empty, `is_valid_move` returns true iff at least one of the 8 compass
directions captures in the sense of the spec's sandwich rule
(`capturesSpec`): a contiguous run of one or more opponent cells starting
adjacent to the candidate, entirely on the board, immediately followed by a
cell of the active player's color. -/
theorem C1_legality (b : Board) (hWF : WF b) (row col : Int)
    (hr0 : 0 ≤ row) (hr8 : row < 8) (hc0 : 0 ≤ col) (hc8 : col < 8)
    (hempty : cellAt b.board row col = EMPTY) :
    is_valid_move b row col = some true ↔
      ∃ d ∈ DIRECTIONS,
        capturesSpec b.board b.current_player (opponentOf b.current_player)
          row col d.1 d.2 := by
  obtain ⟨hs, hok, hcur⟩ := hWF
  have hin : inBb row col = true := by
    rw [inBb_iff]; exact ⟨hr0, hr8, hc0, hc8⟩
  have hmain : (DIRECTIONS.any fun d =>
      checkDir b.board b.current_player (opponentOf b.current_player) row col d.1 d.2) =
        true ↔
      ∃ d ∈ DIRECTIONS,
        capturesSpec b.board b.current_player (opponentOf b.current_player)
          row col d.1 d.2 := by
    rw [List.any_eq_true]
    constructor
    · rintro ⟨⟨d1, d2⟩, hd, hcd⟩
      exact ⟨(d1, d2), hd,
        (checkDir_iff b.board hs hok b.current_player hcur row col d1 d2 hd).mp hcd⟩
    · rintro ⟨⟨d1, d2⟩, hd, hcap⟩
      exact ⟨(d1, d2), hd,
        (checkDir_iff b.board hs hok b.current_player hcur row col d1 d2 hd).mpr hcap⟩
  unfold is_valid_move
  rw [boardGet_eq_cellAt b.board hs row col hin, hempty]
  simpa using hmain

/-- Witness for C1 at the initial board, cell (2,3). -/
theorem C1_legality_witness :
    is_valid_move initialBoard 2 3 = some true ↔
      ∃ d ∈ DIRECTIONS,
        capturesSpec initialBoard.board initialBoard.current_player
          (opponentOf initialBoard.current_player) 2 3 d.1 d.2 :=
  C1_legality initialBoard (by decide) 2 3 (by decide) (by decide) (by decide) (by decide)
    (by decide)

/-! ## C2: occupancy and flip accounting -/

lemma countP_set_balance (p : Nat → Bool) :
    ∀ (l : List Nat) (i : Nat), i < l.length → ∀ v : Nat,
    (l.set i v).countP p + (if p (l.getD i EMPTY) then 1 else 0) =
      l.countP p + (if p v then 1 else 0) := by
  intro l
  induction l with
  | nil => intro i h; simp at h
  | cons a t ih =>
    intro i h v
    cases i with
    | zero =>
      simp only [List.set_cons_zero, List.countP_cons, List.getD_cons_zero]
      omega
    | succ n =>
      have hn : n < t.length := by simpa using h
      simp only [List.set_cons_succ, List.countP_cons, List.getD_cons_succ]
      have := ih n hn v
      omega

lemma occ_set_row :
    ∀ (g : Grid) (i : Nat), i < g.length → ∀ (row' : List Nat),
    occ (g.set i row') + (g.getD i []).countP (fun v => v != EMPTY) =
      occ g + row'.countP (fun v => v != EMPTY) := by
  intro g
  induction g with
  | nil => intro i h; simp at h
  | cons a t ih =>
    intro i h row'
    cases i with
    | zero =>
      simp only [List.set_cons_zero, occ, List.map_cons, List.sum_cons, List.getD_cons_zero]
      omega
    | succ n =>
      have hn : n < t.length := by simpa using h
      simp only [List.set_cons_succ, occ, List.map_cons, List.sum_cons, List.getD_cons_succ]
      have := ih n hn row'
      simp only [occ] at this
      omega

lemma occ_gridSet_balance (g : Grid) (hs : shape8 g) (r c : Int) (hin : inBb r c = true)
    (v : Nat) :
    occ (gridSet g r c v) + (if (cellAt g r c != EMPTY) = true then 1 else 0) =
      occ g + (if (v != EMPTY) = true then 1 else 0) := by
  rw [inBb_iff] at hin
  obtain ⟨hlen, hrows⟩ := hs
  have hr : r.toNat < g.length := by omega
  have hrl : (g.getD r.toNat []).length = 8 := by
    rw [List.getD_eq_getElem g [] hr]
    exact hrows _ (List.getElem_mem hr)
  have hc : c.toNat < (g.getD r.toNat []).length := by omega
  have h1 := occ_set_row g r.toNat hr ((g.getD r.toNat []).set c.toNat v)
  have h2 := countP_set_balance (fun v => v != EMPTY) (g.getD r.toNat []) c.toNat hc v
  unfold gridSet cellAt
  omega

lemma cellAt_gridSet_self (g : Grid) (hs : shape8 g) (r c : Int) (hin : inBb r c = true)
    (v : Nat) : cellAt (gridSet g r c v) r c = v := by
  rw [inBb_iff] at hin
  obtain ⟨hlen, hrows⟩ := hs
  have hr : r.toNat < g.length := by omega
  have hrl : (g.getD r.toNat []).length = 8 := by
    rw [List.getD_eq_getElem g [] hr]
    exact hrows _ (List.getElem_mem hr)
  have hc : c.toNat < ((g.getD r.toNat []).set c.toNat v).length := by
    simp only [List.length_set]; omega
  have hr' : r.toNat < (g.set r.toNat ((g.getD r.toNat []).set c.toNat v)).length := by
    simp only [List.length_set]; omega
  unfold cellAt gridSet
  rw [List.getD_eq_getElem _ [] hr', List.getElem_set_self hr',
    List.getD_eq_getElem _ EMPTY hc, List.getElem_set_self hc]

lemma cellAt_gridSet_other (g : Grid) (hs : shape8 g) (r c r' c' : Int)
    (hin : inBb r c = true) (hin' : inBb r' c' = true) (hne : ¬(r' = r ∧ c' = c))
    (v : Nat) : cellAt (gridSet g r c v) r' c' = cellAt g r' c' := by
  rw [inBb_iff] at hin hin'
  obtain ⟨hlen, hrows⟩ := hs
  have hr : r.toNat < g.length := by omega
  have hr' : r'.toNat < g.length := by omega
  by_cases hrr : r'.toNat = r.toNat
  · have hreq : r' = r := by omega
    have hcne : c' ≠ c := fun hc2 => hne ⟨hreq, hc2⟩
    have hccne : c.toNat ≠ c'.toNat := by omega
    subst hreq
    have hrowlen : (g.getD r'.toNat []).length = 8 := by
      rw [List.getD_eq_getElem g [] hr']
      exact hrows _ (List.getElem_mem hr')
    have hsetlen : r'.toNat <
        (g.set r'.toNat ((g.getD r'.toNat []).set c.toNat v)).length := by
      simp only [List.length_set]; omega
    have hc2 : c'.toNat < ((g.getD r'.toNat []).set c.toNat v).length := by
      simp only [List.length_set]; omega
    have hc3 : c'.toNat < (g.getD r'.toNat []).length := by omega
    unfold cellAt gridSet
    rw [List.getD_eq_getElem _ [] hsetlen, List.getElem_set_self hsetlen,
      List.getD_eq_getElem _ EMPTY hc2, List.getElem_set_ne hccne,
      List.getD_eq_getElem _ EMPTY hc3]
  · have hsetlen : r'.toNat <
        (g.set r.toNat ((g.getD r.toNat []).set c.toNat v)).length := by
      simp only [List.length_set]; omega
    have hrrne : r.toNat ≠ r'.toNat := fun h2 => hrr h2.symm
    unfold cellAt gridSet
    rw [List.getD_eq_getElem _ [] hsetlen, List.getElem_set_ne hrrne,
      List.getD_eq_getElem _ [] hr']

lemma shape8_gridSet (g : Grid) (hs : shape8 g) (r c : Int) (v : Nat) :
    shape8 (gridSet g r c v) := by
  obtain ⟨hlen, hrows⟩ := hs
  unfold gridSet
  refine ⟨by simp [hlen], ?_⟩
  intro row hrow
  rcases List.mem_or_eq_of_mem_set hrow with h | h
  · exact hrows _ h
  · subst h
    by_cases hr : r.toNat < g.length
    · rw [List.length_set, List.getD_eq_getElem g [] hr]
      exact hrows _ (List.getElem_mem hr)
    · -- out of range: the set is a no-op, so the row already sat in `g`
      have hnoop : g.set r.toNat ((g.getD r.toNat []).set c.toNat v) = g :=
        List.set_eq_of_length_le (by omega)
      rw [hnoop] at hrow
      exact hrows _ hrow

lemma cellsOK_gridSet (g : Grid) (hok : cellsOK g) (r c : Int) (v : Nat)
    (hv : v = EMPTY ∨ v = BLACK ∨ v = WHITE) : cellsOK (gridSet g r c v) := by
  unfold gridSet
  intro row hrow
  rcases List.mem_or_eq_of_mem_set hrow with h | h
  · exact hok _ h
  · subst h
    intro x hx
    rcases List.mem_or_eq_of_mem_set hx with h2 | h2
    · by_cases hr : r.toNat < g.length
      · rw [List.getD_eq_getElem g [] hr] at h2
        exact hok _ (List.getElem_mem hr) _ h2
      · rw [List.getD_eq_default _ _ (by omega)] at h2
        simp at h2
    · subst h2; exact hv

lemma collectLoop_mem (g : Grid) (cur opp : Nat) (dr dc : Int) :
    ∀ (fuel : Nat) (r c : Int) (acc : List (Int × Int)),
    (∀ p ∈ acc, inBb p.1 p.2 = true ∧ cellAt g p.1 p.2 = opp) →
    ∀ p ∈ collectLoop g cur opp dr dc fuel r c acc,
      inBb p.1 p.2 = true ∧ cellAt g p.1 p.2 = opp := by
  intro fuel
  induction fuel with
  | zero => intro r c acc hacc p hp; exact hacc p hp
  | succ n ih =>
    intro r c acc hacc p hp
    unfold collectLoop at hp
    by_cases h1 : (inBb r c && (cellAt g r c == opp)) = true
    · rw [if_pos h1] at hp
      simp only [Bool.and_eq_true, beq_iff_eq] at h1
      have hacc1 : ∀ q ∈ acc ++ [(r, c)],
          inBb q.1 q.2 = true ∧ cellAt g q.1 q.2 = opp := by
        intro q hq
        rcases List.mem_append.mp hq with h | h
        · exact hacc q h
        · simp only [List.mem_singleton] at h
          subst h
          exact ⟨h1.1, h1.2⟩
      by_cases h2 : (!inBb (r + dr) (c + dc) || (cellAt g (r + dr) (c + dc) == EMPTY)) = true
      · rw [if_pos h2] at hp
        simp at hp
      · rw [if_neg h2] at hp
        by_cases h3 : (cellAt g (r + dr) (c + dc) == cur) = true
        · rw [if_pos h3] at hp
          exact hacc1 p hp
        · rw [if_neg h3] at hp
          exact ih (r + dr) (c + dc) _ hacc1 p hp
    · rw [if_neg h1] at hp
      exact hacc p hp

lemma flipCells_props (cur : Nat) (hcz : cur ≠ EMPTY)
    (hcv : cur = EMPTY ∨ cur = BLACK ∨ cur = WHITE) :
    ∀ (l : List (Int × Int)) (g : Grid), shape8 g → cellsOK g →
    (∀ p ∈ l, inBb p.1 p.2 = true ∧ cellAt g p.1 p.2 ≠ EMPTY) →
    occ (flipCells cur g l) = occ g ∧ shape8 (flipCells cur g l) ∧
      cellsOK (flipCells cur g l) ∧
      ∀ r c : Int, inBb r c = true →
        (cellAt (flipCells cur g l) r c = cellAt g r c ∨
          ((r, c) ∈ l ∧ cellAt (flipCells cur g l) r c = cur)) := by
  intro l
  induction l with
  | nil =>
    intro g hs hok _
    exact ⟨rfl, hs, hok, fun r c _ => Or.inl rfl⟩
  | cons p ps ih =>
    intro g hs hok hl
    obtain ⟨hpin, hpne⟩ := hl p (List.mem_cons_self p ps)
    have hocc1 : occ (gridSet g p.1 p.2 cur) = occ g := by
      have hbal := occ_gridSet_balance g hs p.1 p.2 hpin cur
      rw [if_pos (by simpa using hpne), if_pos (by simpa using hcz)] at hbal
      omega
    have hs1 : shape8 (gridSet g p.1 p.2 cur) := shape8_gridSet g hs p.1 p.2 cur
    have hok1 : cellsOK (gridSet g p.1 p.2 cur) := cellsOK_gridSet g hok p.1 p.2 cur hcv
    have hl1 : ∀ q ∈ ps,
        inBb q.1 q.2 = true ∧ cellAt (gridSet g p.1 p.2 cur) q.1 q.2 ≠ EMPTY := by
      intro q hq
      obtain ⟨hqin, hqne⟩ := hl q (List.mem_cons_of_mem _ hq)
      refine ⟨hqin, ?_⟩
      by_cases hqp : q.1 = p.1 ∧ q.2 = p.2
      · rw [hqp.1, hqp.2, cellAt_gridSet_self g hs p.1 p.2 hpin cur]
        exact hcz
      · rw [cellAt_gridSet_other g hs p.1 p.2 q.1 q.2 hpin hqin hqp cur]
        exact hqne
    obtain ⟨ihocc, ihs, ihok, ihcell⟩ := ih (gridSet g p.1 p.2 cur) hs1 hok1 hl1
    have hstep : flipCells cur g (p :: ps) = flipCells cur (gridSet g p.1 p.2 cur) ps := rfl
    rw [hstep]
    refine ⟨by rw [ihocc, hocc1], ihs, ihok, ?_⟩
    intro r c hin
    rcases ihcell r c hin with h | h
    · rw [h]
      by_cases hrc : r = p.1 ∧ c = p.2
      · rw [hrc.1, hrc.2, cellAt_gridSet_self g hs p.1 p.2 hpin cur]
        exact Or.inr ⟨List.mem_cons_self p ps, rfl⟩
      · rw [cellAt_gridSet_other g hs p.1 p.2 r c hpin hin hrc cur]
        exact Or.inl rfl
    · exact Or.inr ⟨List.mem_cons_of_mem _ h.1, h.2⟩

lemma applyDirs_props (cur opp : Nat) (hcz : cur ≠ EMPTY) (hoz : opp ≠ EMPTY)
    (hne : opp ≠ cur) (hcv : cur = EMPTY ∨ cur = BLACK ∨ cur = WHITE) (row col : Int) :
    ∀ (ds : List (Int × Int)) (g : Grid), shape8 g → cellsOK g →
    occ (applyDirs cur opp row col g ds) = occ g ∧
      shape8 (applyDirs cur opp row col g ds) ∧
      cellsOK (applyDirs cur opp row col g ds) ∧
      ∀ r c : Int, inBb r c = true →
        (cellAt (applyDirs cur opp row col g ds) r c = cellAt g r c ∨
          (cellAt g r c = opp ∧ cellAt (applyDirs cur opp row col g ds) r c = cur)) := by
  intro ds
  induction ds with
  | nil =>
    intro g hs hok
    exact ⟨rfl, hs, hok, fun r c _ => Or.inl rfl⟩
  | cons d rest ih =>
    intro g hs hok
    have htf : ∀ p ∈ collectLoop g cur opp d.1 d.2 8 (row + d.1) (col + d.2) [],
        inBb p.1 p.2 = true ∧ cellAt g p.1 p.2 = opp :=
      collectLoop_mem g cur opp d.1 d.2 8 _ _ [] (by simp)
    have htf' : ∀ p ∈ collectLoop g cur opp d.1 d.2 8 (row + d.1) (col + d.2) [],
        inBb p.1 p.2 = true ∧ cellAt g p.1 p.2 ≠ EMPTY := fun p hp =>
      ⟨(htf p hp).1, by rw [(htf p hp).2]; exact hoz⟩
    obtain ⟨focc, fs, fok, fcell⟩ := flipCells_props cur hcz hcv _ g hs hok htf'
    obtain ⟨ihocc, ihs, ihok, ihcell⟩ :=
      ih (flipCells cur g (collectLoop g cur opp d.1 d.2 8 (row + d.1) (col + d.2) [])) fs fok
    have hstep : applyDirs cur opp row col g (d :: rest) =
        applyDirs cur opp row col
          (flipCells cur g (collectLoop g cur opp d.1 d.2 8 (row + d.1) (col + d.2) []))
          rest := rfl
    rw [hstep]
    refine ⟨by rw [ihocc, focc], ihs, ihok, ?_⟩
    intro r c hin
    rcases ihcell r c hin with h | h
    · rw [h]
      rcases fcell r c hin with h2 | h2
      · exact Or.inl h2
      · exact Or.inr ⟨(htf _ h2.1).2, h2.2⟩
    · rcases fcell r c hin with h2 | h2
      · rw [h2] at h
        exact Or.inr ⟨h.1, h.2⟩
      · exact absurd (h.1.symm.trans h2.2) hne

lemma boardSet_eq_gridSet (g : Grid) (hs : shape8 g) (r c : Int)
    (hin : inBb r c = true) (v : Nat) :
    boardSet g r c v = some (gridSet g r c v) := by
  have hin' := hin
  rw [inBb_iff] at hin'
  obtain ⟨hlen, hrows⟩ := hs
  have hr : r.toNat < g.length := by omega
  have h1 : pyIdx g.length r = some r.toNat := by
    unfold pyIdx
    rw [if_pos ⟨hin'.1, by omega⟩]
  have hrl : (g[r.toNat]).length = 8 := hrows _ (List.getElem_mem hr)
  have h2 : pyIdx (g[r.toNat]).length c = some c.toNat := by
    unfold pyIdx
    rw [if_pos ⟨hin'.2.2.1, by omega⟩]
  unfold boardSet gridSet
  rw [h1, List.getD_eq_getElem g [] hr]
  simp [List.getElem?_eq_getElem hr, h2]

lemma valid_empty (b : Board) (hs : shape8 b.board) (row col : Int)
    (hin : inBb row col = true) (hv : is_valid_move b row col = some true) :
    cellAt b.board row col = EMPTY := by
  unfold is_valid_move at hv
  simp only [boardGet_eq_cellAt b.board hs row col hin] at hv
  by_cases h : (cellAt b.board row col != EMPTY) = true
  · rw [if_pos h] at hv
    exact absurd hv (by simp)
  · simpa using h

lemma make_move_eq (b : Board) (hs : shape8 b.board) (row col : Int)
    (hin : inBb row col = true) (hv : is_valid_move b row col = some true) :
    make_move b row col = some (true,
      { board := applyDirs b.current_player (opponentOf b.current_player) row col
          (gridSet b.board row col b.current_player) DIRECTIONS,
        current_player := opponentOf b.current_player,
        moves := b.moves ++ [ coords_to_notation row col] }) := by
  unfold make_move
  rw [hv, boardSet_eq_gridSet b.board hs row col hin]

lemma mem_get_valid_moves (b : Board) (p : Int × Int) (h : p ∈ get_valid_moves b) :
    0 ≤ p.1 ∧ p.1 < 8 ∧ 0 ≤ p.2 ∧ p.2 < 8 ∧ is_valid_move b p.1 p.2 = some true := by
  unfold get_valid_moves at h
  rw [List.mem_flatten] at h
  obtain ⟨l, hl, hpl⟩ := h
  rw [List.mem_map] at hl
  obtain ⟨rn, hrn, rfl⟩ := hl
  rw [List.mem_range] at hrn
  rw [List.mem_filterMap] at hpl
  obtain ⟨cn, hcn, hcc⟩ := hpl
  rw [List.mem_range] at hcn
  simp only [Int.ofNat_eq_coe] at hcc
  by_cases hcond : ( is_valid_move b ((rn : Nat) : Int) ((cn : Nat) : Int)).getD false = true
  · rw [if_pos hcond] at hcc
    have hp : (((rn : Nat) : Int), ((cn : Nat) : Int)) = p := by simpa using hcc
    subst hp
    have hval : is_valid_move b ((rn : Nat) : Int) ((cn : Nat) : Int) = some true := by
      rcases hIv : is_valid_move b ((rn : Nat) : Int) ((cn : Nat) : Int) with _ | bv
      · rw [hIv] at hcond
        simp at hcond
      · rw [hIv] at hcond
        simp only [Option.getD_some] at hcond
        rw [hcond]
    exact ⟨by omega, by omega, by omega, by omega, hval⟩
  · rw [if_neg hcond] at hcc
    simp at hcc

lemma WF_initial : WF initialBoard := by decide

lemma WF_switch (b : Board) (h : WF b) : WF (switch_player b) := by
  obtain ⟨hs, hok, hcur⟩ := h
  refine ⟨hs, hok, ?_⟩
  rcases hcur with h | h <;> simp [switch_player, opponentOf, h, BLACK, WHITE]

lemma WF_make_move (b : Board) (hWF : WF b) (row col : Int)
    (hmem : (row, col) ∈ get_valid_moves b) (b' : Board)
    (h : make_move b row col = some (true, b')) : WF b' := by
  obtain ⟨hs, hok, hcur⟩ := hWF
  obtain ⟨h1, h2, h3, h4, hv⟩ := mem_get_valid_moves b (row, col) hmem
  have hin : inBb row col = true := by
    rw [inBb_iff]; exact ⟨h1, h2, h3, h4⟩
  rw [make_move_eq b hs row col hin hv] at h
  simp only [Option.some.injEq, Prod.mk.injEq, true_and] at h
  subst h
  obtain ⟨hoppv, hoppne, hoppz⟩ := opponentOf_vals b.current_player hcur
  have hcz : b.current_player ≠ EMPTY := by
    rcases hcur with h | h <;> simp [h, BLACK, WHITE, EMPTY]
  have hs0 := shape8_gridSet b.board hs row col b.current_player
  have hok0 := cellsOK_gridSet b.board hok row col b.current_player (Or.inr hcur)
  obtain ⟨-, hsf, hokf, -⟩ :=
    applyDirs_props b.current_player (opponentOf b.current_player) hcz hoppz hoppne
      (Or.inr hcur) row col DIRECTIONS
      (gridSet b.board row col b.current_player) hs0 hok0
  exact ⟨hsf, hokf, hoppv⟩

lemma WF_Reachable (b : Board) (h : Reachable b) : WF b := by
  induction h with
  | init => exact WF_initial
  | move b b' row col _ hmem hm ih => exact WF_make_move b ih row col hmem b' hm
  | pass b _ ih => exact WF_switch b ih

/-- C2: from any reachable board state, applying a legal move adds exactly
one occupied cell (the placement), and every other cell that changes is a
flip: it held the opponent's color before the call and the active player's
color after, so flips never change occupancy and the occupied count never
decreases. -/
theorem C2_move_occupancy (b : Board) (hreach : Reachable b) (row col : Int)
    (hmem : (row, col) ∈ get_valid_moves b) :
    ∃ b', make_move b row col = some (true, b') ∧
      occ b'.board = occ b.board + 1 ∧
      ∀ r c : Int, inBb r c = true → cellAt b'.board r c ≠ cellAt b.board r c →
        ((r = row ∧ c = col) ∨
          (cellAt b.board r c = opponentOf b.current_player ∧
            cellAt b'.board r c = b.current_player)) := by
  obtain ⟨hs, hok, hcur⟩ := WF_Reachable b hreach
  obtain ⟨h1, h2, h3, h4, hv⟩ := mem_get_valid_moves b (row, col) hmem
  have hin : inBb row col = true := by
    rw [inBb_iff]; exact ⟨h1, h2, h3, h4⟩
  have hempty : cellAt b.board row col = EMPTY := valid_empty b hs row col hin hv
  obtain ⟨hoppv, hoppne, hoppz⟩ := opponentOf_vals b.current_player hcur
  have hcz : b.current_player ≠ EMPTY := by
    rcases hcur with h | h <;> simp [h, BLACK, WHITE, EMPTY]
  have hs0 := shape8_gridSet b.board hs row col b.current_player
  have hok0 := cellsOK_gridSet b.board hok row col b.current_player (Or.inr hcur)
  obtain ⟨hocc, hsf, hokf, hcells⟩ :=
    applyDirs_props b.current_player (opponentOf b.current_player) hcz hoppz hoppne
      (Or.inr hcur) row col DIRECTIONS
      (gridSet b.board row col b.current_player) hs0 hok0
  refine ⟨_, make_move_eq b hs row col hin hv, ?_, ?_⟩
  · show occ (applyDirs b.current_player (opponentOf b.current_player) row col
      (gridSet b.board row col b.current_player) DIRECTIONS) = occ b.board + 1
    rw [hocc]
    have hbal := occ_gridSet_balance b.board hs row col hin b.current_player
    rw [if_neg (by simp [hempty]), if_pos (by simpa using hcz)] at hbal
    omega
  · intro r c hinrc hchg
    rcases hcells r c hinrc with h | h
    · -- the placement is the only change through `gridSet`
      by_cases hrc : r = row ∧ c = col
      · exact Or.inl hrc
      · rw [h, cellAt_gridSet_other b.board hs row col r c hin hinrc hrc
          b.current_player] at hchg
        exact absurd rfl hchg
    · -- a flip: opponent before, active player after
      by_cases hrc : r = row ∧ c = col
      · -- impossible: the placed cell holds the player's color, not the opponent's
        rw [hrc.1, hrc.2, cellAt_gridSet_self b.board hs row col hin b.current_player]
          at h
        exact absurd h.1.symm hoppne
      · rw [cellAt_gridSet_other b.board hs row col r c hin hinrc hrc
          b.current_player] at h
        exact Or.inr ⟨h.1, h.2⟩

/-- Witness for C2 at the initial board, move (2,3). -/
theorem C2_move_occupancy_witness :
    ∃ b', make_move initialBoard 2 3 = some (true, b') ∧
      occ b'.board = occ initialBoard.board + 1 ∧
      ∀ r c : Int, inBb r c = true →
        cellAt b'.board r c ≠ cellAt initialBoard.board r c →
        ((r = 2 ∧ c = 3) ∨
          (cellAt initialBoard.board r c = opponentOf initialBoard.current_player ∧
            cellAt b'.board r c = initialBoard.current_player)) :=
  C2_move_occupancy initialBoard Reachable.init 2 3 (by decide)

/-! ## The simulation loop: supporting lemmas -/

lemma decode_encode_nat : ∀ rn : Nat, rn < 8 → ∀ cn : Nat, cn < 8 →
    notation_to_coords ( coords_to_notation (rn : Int) (cn : Int)) =
      some ((rn : Int), (cn : Int)) := by decide


lemma is_game_over_restore (b : Board)
    (hcur : b.current_player = BLACK ∨ b.current_player = WHITE) :
    (is_game_over_s b).2 = b := by
  unfold is_game_over_s
  by_cases h : has_valid_moves b = true
  · simp [h]
  · simp only [h, if_false, Bool.false_eq_true]
    exact switch_switch b hcur

lemma is_game_over_val (b : Board) :
    (is_game_over_s b).1 = (!has_valid_moves b && !has_valid_moves (switch_player b)) := by
  unfold is_game_over_s
  by_cases h : has_valid_moves b = true <;> simp [h]

lemma has_valid_moves_true_iff (b : Board) :
    has_valid_moves b = true ↔ get_valid_moves b ≠ [] := by
  unfold has_valid_moves
  simp [List.length_pos]

lemma replay_nil (fuel : Nat) (b : Board) : replay fuel [] b = b := by
  cases fuel <;> rfl

lemma make_move_occ_core (b : Board) (hWF : WF b) (row col : Int)
    (hmem : (row, col) ∈ get_valid_moves b) (b' : Board)
    (hmk : make_move b row col = some (true, b')) :
    occ b'.board = occ b.board + 1 := by
  obtain ⟨hs, hok, hcur⟩ := hWF
  obtain ⟨h1, h2, h3, h4, hv⟩ := mem_get_valid_moves b (row, col) hmem
  have hin : inBb row col = true := by
    rw [inBb_iff]; exact ⟨h1, h2, h3, h4⟩
  have hempty : cellAt b.board row col = EMPTY := valid_empty b hs row col hin hv
  obtain ⟨hoppv, hoppne, hoppz⟩ := opponentOf_vals b.current_player hcur
  have hcz : b.current_player ≠ EMPTY := by
    rcases hcur with h | h <;> simp [h, BLACK, WHITE, EMPTY]
  have hs0 := shape8_gridSet b.board hs row col b.current_player
  have hok0 := cellsOK_gridSet b.board hok row col b.current_player (Or.inr hcur)
  obtain ⟨hocc, -, -, -⟩ :=
    applyDirs_props b.current_player (opponentOf b.current_player) hcz hoppz hoppne
      (Or.inr hcur) row col DIRECTIONS
      (gridSet b.board row col b.current_player) hs0 hok0
  rw [make_move_eq b hs row col hin hv] at hmk
  simp only [Option.some.injEq, Prod.mk.injEq, true_and] at hmk
  subst hmk
  show occ (applyDirs b.current_player (opponentOf b.current_player) row col
    (gridSet b.board row col b.current_player) DIRECTIONS) = occ b.board + 1
  rw [hocc]
  have hbal := occ_gridSet_balance b.board hs row col hin b.current_player
  rw [if_neg (by simp [hempty]), if_pos (by simpa using hcz)] at hbal
  omega

lemma decode_encode_int (row col : Int) (hr0 : 0 ≤ row) (hr8 : row < 8)
    (hc0 : 0 ≤ col) (hc8 : col < 8) :
    notation_to_coords ( coords_to_notation row col) = some (row, col) := by
  obtain ⟨rn, rfl⟩ : ∃ n : Nat, row = (n : Int) :=
    ⟨row.toNat, (Int.toNat_of_nonneg hr0).symm⟩
  obtain ⟨cn, rfl⟩ : ∃ n : Nat, col = (n : Int) :=
    ⟨col.toNat, (Int.toNat_of_nonneg hc0).symm⟩
  exact decode_encode_nat rn (by omega) cn (by omega)

lemma genLoop_replay (choose : List (Int × Int) → Int × Int)
    (hch : ∀ l : List (Int × Int), l ≠ [] → choose l ∈ l) :
    ∀ (fuel : Nat) (b bf : Board), WF b →
    genLoop choose fuel b = some bf →
    (is_game_over_s bf).1 = true ∧ WF bf ∧
      occ bf.board + b.moves.length = occ b.board + bf.moves.length ∧
      ∃ ts : List String, bf.moves = b.moves ++ ts ∧ replay fuel ts b = bf := by
  intro fuel
  induction fuel with
  | zero => intro b bf hWF h; simp [genLoop] at h
  | succ n ih =>
    intro b bf hWF h
    unfold genLoop genStep at h
    rw [is_game_over_restore b hWF.2.2] at h
    by_cases hgo : (is_game_over_s b).1 = true
    · rw [if_pos hgo] at h
      obtain rfl : b = bf := by simpa using h
      exact ⟨hgo, hWF, by omega, [], by simp, rfl⟩
    · rw [if_neg hgo] at h
      rcases hvm : get_valid_moves b with _ | ⟨m, rest⟩
      · -- pass ply
        simp only [hvm] at h
        have hWF' : WF (switch_player b) := WF_switch b hWF
        obtain ⟨hgof, hWFf, hocc, ts, hts, hrep⟩ := ih (switch_player b) bf hWF' h
        have hhm : has_valid_moves b = false := by
          rw [has_valid_moves_false_iff]; exact hvm
        have hhm2 : has_valid_moves (switch_player b) = true := by
          have hval := is_game_over_val b
          rw [hhm] at hval
          rcases hb2 : has_valid_moves (switch_player b) with _ | _
          · rw [hb2] at hval
            simp at hval
            exact absurd hval hgo
          · rfl
        have hts' : bf.moves = b.moves ++ ts := hts
        refine ⟨hgof, hWFf, by simpa using hocc, ts, hts', ?_⟩
        rcases ts with _ | ⟨t, ts'⟩
        · exfalso
          rw [replay_nil] at hrep
          have hbf : bf = switch_player b := hrep.symm
          rw [hbf, is_game_over_val (switch_player b), hhm2] at hgof
          simp at hgof
        · show replay (n + 1) (t :: ts') b = bf
          unfold replay replayStep
          rw [if_neg (by simp [hhm])]
          exact hrep
      · -- a placement ply
        simp only [hvm] at h
        have hne : get_valid_moves b ≠ [] := by rw [hvm]; simp
        have hmem : choose (m :: rest) ∈ get_valid_moves b := by
          rw [hvm]; exact hch _ (by simp)
        have hmemp : ((choose (m :: rest)).1, (choose (m :: rest)).2) ∈ get_valid_moves b := hmem
        obtain ⟨h1, h2, h3, h4, hval⟩ := mem_get_valid_moves b _ hmem
        have hin : inBb (choose (m :: rest)).1 (choose (m :: rest)).2 = true := by
          rw [inBb_iff]; exact ⟨h1, h2, h3, h4⟩
        have hmk := make_move_eq b hWF.1 (choose (m :: rest)).1 (choose (m :: rest)).2 hin hval
        rw [hmk] at h
        have hWF2 := WF_make_move b hWF (choose (m :: rest)).1 (choose (m :: rest)).2
          hmemp _ hmk
        obtain ⟨hgof, hWFf, hocc, ts, hts, hrep⟩ := ih _ bf hWF2 h
        have hocc2 := make_move_occ_core b hWF (choose (m :: rest)).1 (choose (m :: rest)).2
          hmemp _ hmk
        have hhm : has_valid_moves b = true := by
          rw [has_valid_moves_true_iff]; exact hne
        refine ⟨hgof, hWFf, ?_, coords_to_notation (choose (m :: rest)).1
          (choose (m :: rest)).2 :: ts, ?_, ?_⟩
        · -- token and occupancy counts advance together
          have hocc2' : occ (applyDirs b.current_player (opponentOf b.current_player)
              (choose (m :: rest)).1 (choose (m :: rest)).2
              (gridSet b.board (choose (m :: rest)).1 (choose (m :: rest)).2
                b.current_player) DIRECTIONS) = occ b.board + 1 := hocc2
          have hoccb : occ bf.board + (b.moves.length + 1) =
              occ (applyDirs b.current_player (opponentOf b.current_player)
                (choose (m :: rest)).1 (choose (m :: rest)).2
                (gridSet b.board (choose (m :: rest)).1 (choose (m :: rest)).2
                  b.current_player) DIRECTIONS) + bf.moves.length := by
            have hocc' := hocc
            simp only [List.length_append, List.length_cons, List.length_nil] at hocc'
            exact hocc'
          omega
        · rw [hts]
          simp
        · show replay (n + 1) _ b = bf
          unfold replay replayStep
          rw [if_pos hhm]
          simp only [decode_encode_int (choose (m :: rest)).1 (choose (m :: rest)).2
            h1 h2 h3 h4, hmk]
          exact hrep

/-- C5: a completed simulation run (the `generate_game` loop reaching the
terminal state) is reproduced exactly — final board, player and
occupied-cell count — by replaying its recorded token list against a fresh
board, re-deriving each pass by checking whether the player to move has a
valid move instead of consulting the recorded list. -/
theorem C5_replay_consistency (choose : List (Int × Int) → Int × Int)
    (hch : ∀ l : List (Int × Int), l ≠ [] → choose l ∈ l) (fuel : Nat) (bf : Board)
    (h : genLoop choose fuel initialBoard = some bf) :
    replay fuel bf.moves initialBoard = bf ∧
      occ (replay fuel bf.moves initialBoard).board = occ bf.board := by
  obtain ⟨-, -, -, ts, hts, hrep⟩ :=
    genLoop_replay choose hch fuel initialBoard bf WF_initial h
  have hts' : bf.moves = ts := by simpa using hts
  rw [hts']
  exact ⟨hrep, by rw [hrep]⟩

/-- The nine plies of a shortest possible Othello game, as coordinates:
e6 f4 e3 f6 g5 d6 e7 f5 c5. -/
def scriptMoves : List (Int × Int) :=
  [(5, 4), (3, 5), (2, 4), (5, 5), (4, 6), (5, 3), (6, 4), (4, 5), (4, 2)]

/-- A deterministic stand-in for `random.choice`: pick the first scripted
move offered, else the first offered move. -/
def scriptChoose (l : List (Int × Int)) : Int × Int :=
  (scriptMoves.filter fun p => l.contains p).headD (l.headD (0, 0))

lemma scriptChoose_mem (l : List (Int × Int)) (h : l ≠ []) : scriptChoose l ∈ l := by
  unfold scriptChoose
  rcases hf : scriptMoves.filter (fun p => l.contains p) with _ | ⟨q, qs⟩
  · rcases l with _ | ⟨x, xs⟩
    · exact absurd rfl h
    · simp
  · have hq : q ∈ scriptMoves.filter (fun p => l.contains p) := by rw [hf]; simp
    have hmem := List.of_mem_filter hq
    simp only [List.headD_cons]
    simpa using hmem

/-- Witness for C5: the scripted nine-move game, generated and replayed. -/
theorem C5_replay_consistency_witness :
    replay 12 ((genLoop scriptChoose 12 initialBoard).getD initialBoard).moves
        initialBoard = (genLoop scriptChoose 12 initialBoard).getD initialBoard ∧
      occ (replay 12 ((genLoop scriptChoose 12 initialBoard).getD initialBoard).moves
        initialBoard).board =
        occ ((genLoop scriptChoose 12 initialBoard).getD initialBoard).board :=
  C5_replay_consistency scriptChoose scriptChoose_mem 12
    ((genLoop scriptChoose 12 initialBoard).getD initialBoard) (by decide)

/-! ## C8: termination of the simulation -/

lemma genLoop_mono (choose : List (Int × Int) → Int × Int) :
    ∀ (fuel k : Nat) (b bf : Board), genLoop choose fuel b = some bf →
    genLoop choose (fuel + k) b = some bf := by
  intro fuel
  induction fuel with
  | zero => intro k b bf h; simp [genLoop] at h
  | succ n ih =>
    intro k b bf h
    rw [show n + 1 + k = (n + k) + 1 from by omega]
    unfold genLoop genStep at h ⊢
    by_cases hgo : (is_game_over_s b).1 = true
    · rw [if_pos hgo] at h ⊢
      exact h
    · rw [if_neg hgo] at h ⊢
      rcases hvm : get_valid_moves (is_game_over_s b).2 with _ | ⟨m, rest⟩ <;>
        simp only [hvm] at h ⊢
      · exact ih k _ bf h
      · rcases hmk : make_move (is_game_over_s b).2 (choose (m :: rest)).1
            (choose (m :: rest)).2 with _ | p <;> simp only [hmk] at h ⊢
        · exact h
        · exact ih k _ bf h

lemma occ_le_64 (g : Grid) (hs : shape8 g) : occ g ≤ 64 := by
  obtain ⟨hlen, hrows⟩ := hs
  unfold occ
  have hbound : ∀ x ∈ g.map (fun row => row.countP fun v => v != EMPTY), x ≤ 8 := by
    intro x hx
    rw [List.mem_map] at hx
    obtain ⟨row, hrow, rfl⟩ := hx
    calc (row.countP fun v => v != EMPTY) ≤ row.length := List.countP_le_length _
    _ = 8 := hrows _ hrow
  calc (g.map (fun row => row.countP fun v => v != EMPTY)).sum
      ≤ (g.map (fun row => row.countP fun v => v != EMPTY)).length * 8 :=
        List.sum_le_card_nsmul _ 8 hbound
  _ = 64 := by rw [List.length_map, hlen]

lemma occ_lt_64_of_empty (g : Grid) (hs : shape8 g) (r c : Int) (hin : inBb r c = true)
    (hempty : cellAt g r c = EMPTY) : occ g < 64 := by
  have hbal := occ_gridSet_balance g hs r c hin BLACK
  rw [if_neg (by simp [hempty]), if_pos (by simp [BLACK, EMPTY])] at hbal
  have hle := occ_le_64 (gridSet g r c BLACK) (shape8_gridSet g hs r c BLACK)
  omega

lemma has_moves_occ_lt (b : Board) (hWF : WF b) (h : has_valid_moves b = true) :
    occ b.board < 64 := by
  rw [has_valid_moves_true_iff] at h
  obtain ⟨p, hp⟩ : ∃ p, p ∈ get_valid_moves b := by
    rcases hgv : get_valid_moves b with _ | ⟨m, rest⟩
    · exact absurd hgv h
    · exact ⟨m, by simp [hgv]⟩
  obtain ⟨h1, h2, h3, h4, hv⟩ := mem_get_valid_moves b p hp
  have hin : inBb p.1 p.2 = true := by
    rw [inBb_iff]; exact ⟨h1, h2, h3, h4⟩
  exact occ_lt_64_of_empty b.board hWF.1 p.1 p.2 hin
    (valid_empty b hWF.1 p.1 p.2 hin hv)

lemma genLoop_terminates (choose : List (Int × Int) → Int × Int)
    (hch : ∀ l : List (Int × Int), l ≠ [] → choose l ∈ l) :
    ∀ (n : Nat) (b : Board), WF b → 64 - occ b.board ≤ n →
    ∃ bf, genLoop choose (2 * n + 2) b = some bf := by
  intro n
  induction n with
  | zero =>
    intro b hWF hocc
    -- a full board: neither player can move, so the game is over at once
    have hful : 64 ≤ occ b.board := by omega
    have hhm : has_valid_moves b = false := by
      rcases hb : has_valid_moves b with _ | _
      · rfl
      · exact absurd hful (by have := has_moves_occ_lt b hWF hb; omega)
    have hhm2 : has_valid_moves (switch_player b) = false := by
      rcases hb : has_valid_moves (switch_player b) with _ | _
      · rfl
      · refine absurd hful ?_
        have hlt := has_moves_occ_lt (switch_player b) (WF_switch b hWF) hb
        have hsw : occ (switch_player b).board = occ b.board := rfl
        omega
    have hgo : (is_game_over_s b).1 = true := by
      rw [is_game_over_val b, hhm, hhm2]
      rfl
    exact ⟨_, by unfold genLoop genStep; rw [if_pos hgo]⟩
  | succ n ih =>
    intro b hWF hocc
    rw [show 2 * (n + 1) + 2 = (2 * n + 3) + 1 from by omega]
    unfold genLoop genStep
    rw [is_game_over_restore b hWF.2.2]
    by_cases hgo : (is_game_over_s b).1 = true
    · exact ⟨_, by rw [if_pos hgo]⟩
    · rw [if_neg hgo]
      rcases hvm : get_valid_moves b with _ | ⟨m, rest⟩
      · -- pass, then the opponent must be able to move
        have hhm : has_valid_moves b = false := by
          rw [has_valid_moves_false_iff]; exact hvm
        have hhm2 : has_valid_moves (switch_player b) = true := by
          have hval := is_game_over_val b
          rw [hhm] at hval
          rcases hb2 : has_valid_moves (switch_player b) with _ | _
          · rw [hb2] at hval
            simp at hval
            exact absurd hval hgo
          · rfl
        set b1 := switch_player b with hb1
        have hWF1 : WF b1 := WF_switch b hWF
        have hgo1 : ¬((is_game_over_s b1).1 = true) := by
          rw [is_game_over_val b1, hhm2]
          simp
        rw [show 2 * n + 3 = (2 * n + 2) + 1 from by omega]
        unfold genLoop genStep
        rw [is_game_over_restore b1 hWF1.2.2, if_neg hgo1]
        rcases hvm1 : get_valid_moves b1 with _ | ⟨m1, rest1⟩
        · exact absurd (has_valid_moves_false_iff b1 |>.mpr hvm1)
            (by rw [hhm2]; simp)
        · have hmem : choose (m1 :: rest1) ∈ get_valid_moves b1 := by
            rw [hvm1]; exact hch _ (by simp)
          have hmemp : ((choose (m1 :: rest1)).1, (choose (m1 :: rest1)).2) ∈
              get_valid_moves b1 := hmem
          obtain ⟨h1, h2, h3, h4, hval⟩ := mem_get_valid_moves b1 _ hmem
          have hin : inBb (choose (m1 :: rest1)).1 (choose (m1 :: rest1)).2 = true := by
            rw [inBb_iff]; exact ⟨h1, h2, h3, h4⟩
          have hmk := make_move_eq b1 hWF1.1 (choose (m1 :: rest1)).1
            (choose (m1 :: rest1)).2 hin hval
          simp only [hmk]
          have hWF2 := WF_make_move b1 hWF1 (choose (m1 :: rest1)).1
            (choose (m1 :: rest1)).2 hmemp _ hmk
          have hocc2 := make_move_occ_core b1 hWF1 (choose (m1 :: rest1)).1
            (choose (m1 :: rest1)).2 hmemp _ hmk
          refine ih _ hWF2 ?_
          have : occ b1.board = occ b.board := rfl
          omega
      · have hmem : choose (m :: rest) ∈ get_valid_moves b := by
          rw [hvm]; exact hch _ (by simp)
        have hmemp : ((choose (m :: rest)).1, (choose (m :: rest)).2) ∈
            get_valid_moves b := hmem
        obtain ⟨h1, h2, h3, h4, hval⟩ := mem_get_valid_moves b _ hmem
        have hin : inBb (choose (m :: rest)).1 (choose (m :: rest)).2 = true := by
          rw [inBb_iff]; exact ⟨h1, h2, h3, h4⟩
        have hmk := make_move_eq b hWF.1 (choose (m :: rest)).1 (choose (m :: rest)).2
          hin hval
        simp only [hmk]
        have hWF2 := WF_make_move b hWF (choose (m :: rest)).1 (choose (m :: rest)).2
          hmemp _ hmk
        have hocc2 := make_move_occ_core b hWF (choose (m :: rest)).1
          (choose (m :: rest)).2 hmemp _ hmk
        obtain ⟨bf, hbf⟩ := ih _ hWF2 (by omega)
        exact ⟨bf, genLoop_mono choose (2 * n + 2) 1 _ bf hbf⟩

/-- C8: for every possible sequence of random choices, the simulation loop
terminates — fuel 130 always reaches the terminal state from the fresh
starting board — and the completed run applies at most 60 placements
(64 cells minus the 4 initially occupied). -/
theorem C8_termination (choose : List (Int × Int) → Int × Int)
    (hch : ∀ l : List (Int × Int), l ≠ [] → choose l ∈ l) :
    ∃ bf, genLoop choose 130 initialBoard = some bf ∧
      (is_game_over_s bf).1 = true ∧ bf.moves.length ≤ 60 := by
  have hocc0 : occ initialBoard.board = 4 := by decide
  obtain ⟨bf, hbf⟩ := genLoop_terminates choose hch 60 initialBoard WF_initial
    (by rw [hocc0])
  have hbf130 : genLoop choose 130 initialBoard = some bf := by
    have h130 := genLoop_mono choose (2 * 60 + 2) 8 initialBoard bf hbf
    rw [show 2 * 60 + 2 + 8 = 130 from by norm_num] at h130
    exact h130
  obtain ⟨hgof, hWFf, hocceq, -⟩ :=
    genLoop_replay choose hch 130 initialBoard bf WF_initial hbf130
  have hle := occ_le_64 bf.board hWFf.1
  have hm0 : initialBoard.moves.length = 0 := rfl
  exact ⟨bf, hbf130, hgof, by omega⟩

/-- Witness for C8 with the deterministic scripted choice function. -/
theorem C8_termination_witness :
    ∃ bf, genLoop scriptChoose 130 initialBoard = some bf ∧
      (is_game_over_s bf).1 = true ∧ bf.moves.length ≤ 60 :=
  C8_termination scriptChoose scriptChoose_mem

/-! ## C6: opening moves -/

/-- C6: on a freshly constructed board, `get_valid_moves` returns exactly
(2,3), (3,2), (4,5), (5,4), which encode to "d3", "c4", "f5", "e6". -/
theorem C6_opening_moves :
    get_valid_moves initialBoard = [(2, 3), (3, 2), (4, 5), (5, 4)] ∧
    (get_valid_moves initialBoard).map (fun p => coords_to_notation p.1 p.2) =
      ["d3", "c4", "f5", "e6"] :=
  ⟨by decide, by decide⟩

/-! ## C7: notation round trip -/

lemma char_letter_cases (c : Char) (h1 : 'a' ≤ c) (h2 : c ≤ 'h') :
    c = 'a' ∨ c = 'b' ∨ c = 'c' ∨ c = 'd' ∨ c = 'e' ∨ c = 'f' ∨ c = 'g' ∨ c = 'h' := by
  have h1' : 97 ≤ c.toNat := h1
  have h2' : c.toNat ≤ 104 := h2
  have hchar : ∀ n : Nat, ∀ d : Char, c.toNat = n → d.toNat = n → c = d := by
    intro n d hc hd
    apply Char.ext; apply UInt32.ext
    show c.toNat = d.toNat
    omega
  generalize hg : c.toNat = n at h1' h2'
  interval_cases n
  · exact Or.inl (hchar 97 _ hg (by decide))
  · exact Or.inr (Or.inl (hchar 98 _ hg (by decide)))
  · exact Or.inr (Or.inr (Or.inl (hchar 99 _ hg (by decide))))
  · exact Or.inr (Or.inr (Or.inr (Or.inl (hchar 100 _ hg (by decide)))))
  · exact Or.inr (Or.inr (Or.inr (Or.inr (Or.inl (hchar 101 _ hg (by decide))))))
  · exact Or.inr (Or.inr (Or.inr (Or.inr (Or.inr (Or.inl (hchar 102 _ hg (by decide)))))))
  · exact Or.inr (Or.inr (Or.inr (Or.inr (Or.inr (Or.inr (Or.inl (hchar 103 _ hg (by decide))))))))
  · exact Or.inr (Or.inr (Or.inr (Or.inr (Or.inr (Or.inr (Or.inr (hchar 104 _ hg (by decide))))))))

lemma char_digit_cases (c : Char) (h1 : '1' ≤ c) (h2 : c ≤ '8') :
    c = '1' ∨ c = '2' ∨ c = '3' ∨ c = '4' ∨ c = '5' ∨ c = '6' ∨ c = '7' ∨ c = '8' := by
  have h1' : 49 ≤ c.toNat := h1
  have h2' : c.toNat ≤ 56 := h2
  have hchar : ∀ n : Nat, ∀ d : Char, c.toNat = n → d.toNat = n → c = d := by
    intro n d hc hd
    apply Char.ext; apply UInt32.ext
    show c.toNat = d.toNat
    omega
  generalize hg : c.toNat = n at h1' h2'
  interval_cases n
  · exact Or.inl (hchar 49 _ hg (by decide))
  · exact Or.inr (Or.inl (hchar 50 _ hg (by decide)))
  · exact Or.inr (Or.inr (Or.inl (hchar 51 _ hg (by decide))))
  · exact Or.inr (Or.inr (Or.inr (Or.inl (hchar 52 _ hg (by decide)))))
  · exact Or.inr (Or.inr (Or.inr (Or.inr (Or.inl (hchar 53 _ hg (by decide))))))
  · exact Or.inr (Or.inr (Or.inr (Or.inr (Or.inr (Or.inl (hchar 54 _ hg (by decide)))))))
  · exact Or.inr (Or.inr (Or.inr (Or.inr (Or.inr (Or.inr (Or.inl (hchar 55 _ hg (by decide))))))))
  · exact Or.inr (Or.inr (Or.inr (Or.inr (Or.inr (Or.inr (Or.inr (hchar 56 _ hg (by decide))))))))

/-- C7: `decode (encode (row, col)) = (row, col)` on [0,8)×[0,8), and
`encode (decode t) = t` for every well-formed two-character token
(letter in a..h followed by digit in 1..8). -/
theorem C7_roundtrip :
    (∀ row col : Int, 0 ≤ row → row < 8 → 0 ≤ col → col < 8 →
      notation_to_coords ( coords_to_notation row col) = some (row, col)) ∧
    (∀ (s : String) (c0 c1 : Char), s.data = [c0, c1] →
      'a' ≤ c0 → c0 ≤ 'h' → '1' ≤ c1 → c1 ≤ '8' →
      ∃ row col : Int, notation_to_coords s = some (row, col) ∧
        coords_to_notation row col = s) := by
  constructor
  · intro row col hr0 hr8 hc0 hc8
    exact decode_encode_int row col hr0 hr8 hc0 hc8
  · intro s c0 c1 hdata h1 h2 h3 h4
    obtain ⟨data⟩ := s
    have hdata' : data = [c0, c1] := hdata
    subst hdata'
    rcases char_letter_cases c0 h1 h2 with rfl | rfl | rfl | rfl | rfl | rfl | rfl | rfl <;>
      rcases char_digit_cases c1 h3 h4 with rfl | rfl | rfl | rfl | rfl | rfl | rfl | rfl <;>
      exact ⟨_, _, rfl, by decide⟩

/-- Witness for C7 at (2,3) and "e6". -/
theorem C7_roundtrip_witness :
    notation_to_coords ( coords_to_notation 2 3) = some (2, 3) ∧
    (∃ row col : Int, notation_to_coords "e6" = some (row, col) ∧
      coords_to_notation row col = "e6") :=
  ⟨C7_roundtrip.1 2 3 (by decide) (by decide) (by decide) (by decide),
   C7_roundtrip.2 "e6" 'e' '6' rfl (by decide) (by decide) (by decide) (by decide)⟩

/-! ## C3: player alternation (corrected) -/

/-- A concrete well-formed pass position: Black (to move) has no legal move,
the game is not over (White can move), and the pass — `switch_player`, as
invoked by `generate_game` — *does* change the active player, refuting the
claim that the active player does not alternate after a pass. -/
def passBoard : Board :=
  { board := [[2, 1, 0, 0, 0, 0, 0, 0],
              [0, 0, 0, 0, 0, 0, 0, 0],
              [0, 0, 0, 0, 0, 0, 0, 0],
              [0, 0, 0, 0, 0, 0, 0, 0],
              [0, 0, 0, 0, 0, 0, 0, 0],
              [0, 0, 0, 0, 0, 0, 0, 0],
              [0, 0, 0, 0, 0, 0, 0, 0],
              [0, 0, 0, 0, 0, 0, 0, 0]],
    current_player := BLACK, moves := [] }

/-- C3 counterexample: at `passBoard` the current player must pass
(no valid moves, game not over), and the pass toggles the active player. -/
theorem C3_counterexample :
    WF passBoard ∧
    has_valid_moves passBoard = false ∧
    (is_game_over_s passBoard).1 = false ∧
    (switch_player passBoard).current_player ≠ passBoard.current_player := by
  refine ⟨by decide, by decide, by decide, by decide⟩

/-- C3 (amended): the active player toggles to the other color after every
applied move, and likewise toggles after a pass (`switch_player`, the pass
operation, also toggles). -/
theorem C3_alternation (b : Board)
    (hcur : b.current_player = BLACK ∨ b.current_player = WHITE) :
    (∀ (b' : Board) (row col : Int), make_move b row col = some (true, b') →
      b'.current_player = opponentOf b.current_player) ∧
    (switch_player b).current_player = opponentOf b.current_player ∧
    opponentOf b.current_player ≠ b.current_player := by
  refine ⟨?_, rfl, opponentOf_ne _ hcur⟩
  intro b' row col hm
  unfold make_move at hm
  rcases hvm : is_valid_move b row col with _ | v
  · rw [hvm] at hm; exact absurd hm (by simp)
  · rw [hvm] at hm
    rcases v with _ | _
    · exact absurd hm (by simp)
    · rcases hbs : boardSet b.board row col b.current_player with _ | g0 <;> rw [hbs] at hm
      · exact absurd hm (by simp)
      · simp only [Option.some.injEq, Prod.mk.injEq, true_and] at hm
        subst hm
        rfl

/-- Witness for C3's amended theorem at the initial board. -/
theorem C3_alternation_witness :
    (∀ (b' : Board) (row col : Int), make_move initialBoard row col = some (true, b') →
      b'.current_player = opponentOf initialBoard.current_player) ∧
    (switch_player initialBoard).current_player = opponentOf initialBoard.current_player ∧
    opponentOf initialBoard.current_player ≠ initialBoard.current_player :=
  C3_alternation initialBoard (Or.inl rfl)

/-! ## C4: termination probe is side-effect free -/

/-- C4: `is_game_over` returns true iff neither the current player nor the
opponent has a valid move, and the double player-toggle probe restores the
state completely. -/
theorem C4_game_over (b : Board)
    (hcur : b.current_player = BLACK ∨ b.current_player = WHITE) :
    (is_game_over_s b).2 = b ∧
    ((is_game_over_s b).1 = true ↔
      has_valid_moves b = false ∧ has_valid_moves (switch_player b) = false) := by
  unfold is_game_over_s
  by_cases h : has_valid_moves b
  · simp [h]
  · simp only [h, if_false, Bool.not_eq_true']
    refine ⟨switch_switch b hcur, ?_⟩
    simp [h, Bool.not_eq_true']

/-- Witness for C4 at the initial board. -/
theorem C4_game_over_witness :
    (is_game_over_s initialBoard).2 = initialBoard ∧
    ((is_game_over_s initialBoard).1 = true ↔
      has_valid_moves initialBoard = false ∧
      has_valid_moves (switch_player initialBoard) = false) :=
  C4_game_over initialBoard (Or.inl rfl)

/-! ## C9: rejected moves leave the state unchanged -/

/-- C9: on any in-range coordinate that `is_valid_move` rejects, `make_move`
returns `False` and the board object — grid, `current_player` and recorded
moves alike — is exactly what it was. -/
theorem C9_rejected_move_atomic (b : Board) (row col : Int)
    (_hr0 : 0 ≤ row) (_hr8 : row < 8) (_hc0 : 0 ≤ col) (_hc8 : col < 8)
    (hv : is_valid_move b row col = some false) :
    make_move b row col = some (false, b) := by
  unfold make_move
  rw [hv]

/-- Witness for C9 at the initial board, cell (0,0). -/
theorem C9_rejected_move_atomic_witness :
    make_move initialBoard 0 0 = some (false, initialBoard) :=
  C9_rejected_move_atomic initialBoard 0 0 (by decide) (by decide) (by decide) (by decide)
    (by decide)

/-! ## C10: negative coordinates are not rejected -/

/-- C10: for any 8×8 board, a coordinate pair with one component in
[-8,-1] and the other in [-8,8) is silently accepted: `is_valid_move`
returns a boolean verdict instead of failing, because Python's negative
indexing wraps to a cell counted from the opposite edge. -/
theorem C10_negative_index_accepted (b : Board) (hs : shape8 b.board) (row col : Int)
    (h : (-8 ≤ row ∧ row ≤ -1 ∧ -8 ≤ col ∧ col < 8) ∨
         (-8 ≤ col ∧ col ≤ -1 ∧ -8 ≤ row ∧ row < 8)) :
    ∃ v : Bool, is_valid_move b row col = some v := by
  have hrange : -8 ≤ row ∧ row < 8 ∧ -8 ≤ col ∧ col < 8 := by omega
  obtain ⟨v, hv⟩ := boardGet_total b.board hs row col hrange.1 hrange.2.1 hrange.2.2.1
    hrange.2.2.2
  simp only [is_valid_move, hv]
  split_ifs <;> exact ⟨_, rfl⟩

/-- Witness for C10 at the initial board, coordinate (-1, 3). -/
theorem C10_negative_index_accepted_witness :
    ∃ v : Bool, is_valid_move initialBoard (-1) 3 = some v :=
  C10_negative_index_accepted initialBoard (by decide) (-1) 3 (by decide)

end Othello
